import Mathlib

/-!
Verification development for the BarcodeForge barcode-construction core.

The Python sources `barcodeforge/generate_barcodes.py`, `barcodeforge/ref_muts.py`
and `barcodeforge/utils.py` are shallowly embedded below.  A barcode matrix
(a pandas DataFrame with lineages as rows and mutation tokens as columns,
non-negative integer entries) is modelled as a list of row labels, an ordered
list of column tokens, and a valuation function; mutation tokens (Python `str`)
are modelled as `List Char`.  Python's partial operations (indexing an empty
string, `int()` on non-digit text) are totalised, and the theorems carry
hypotheses restricting attention to inputs on which the Python code is defined.
-/

namespace BarcodeForge

/-- A mutation token, e.g. `"A123T"`; Python strings are modelled as `List Char`. -/
abbrev Tok := List Char

/-- Python `d[-1] + d[1:len(d)-1] + d[0]` from `reversion_checking` /
`check_no_flip_pairs`: swap the first and last characters.  On the empty
string Python raises `IndexError`; we return `[]` and restrict theorems to
columns without the empty token. -/
def flip : Tok → Tok
  | [] => []
  | ch :: rest => rest.getLastD ch :: (rest.dropLast ++ [ch])

/-- Python `d[0:len(d)-1]` from `identify_chains`: the token without its last
character (its "site": reference base + position digits). -/
def site (d : Tok) : Tok := d.dropLast

/-- Python `d[-1] + d[1:len(d)-1]` from `identify_chains`: last character
followed by the middle (mutant base + position digits). -/
def flipSite : Tok → Tok
  | [] => []
  | ch :: rest => rest.getLastD ch :: rest.dropLast

/-- Python `d[-1]` as a one-character string (empty on the empty string,
where Python would raise). -/
def pyLast : Tok → Tok
  | [] => []
  | ch :: rest => [rest.getLastD ch]

/-- Digits-to-number accumulator modelling Python `int` on a string of
decimal digits (the only inputs on which `sortFun` is ever called without
raising `ValueError`). -/
def natOfDigits (l : List Char) : Nat :=
  l.foldl (fun acc c => acc * 10 + (c.toNat - 48)) 0

/-- `utils.sortFun`: `int(x[1:len(x)-1])`, the numeric position in the middle
of a mutation token. -/
def sortFun (x : Tok) : Nat := natOfDigits ((x.drop 1).dropLast)

/-- A barcode matrix: pandas DataFrame with lineage row labels, an ordered
list of mutation-token columns, and non-negative integer entries.
`val r c` is meaningful for `r ∈ rows`, `c ∈ cols`. -/
structure Barcode where
  rows : List String
  cols : List Tok
  val : String → Tok → Nat

/-- Column total `df_barcodes[c].sum()` (pandas `sum(axis=0)` for column `c`). -/
def colSum (b : Barcode) (c : Tok) : Nat :=
  (b.rows.map (fun r => b.val r c)).sum

/-- Row total of a valuation over a column list. -/
def rowSumF (cols : List Tok) (f : Tok → Nat) : Nat := (cols.map f).sum

/-- Total count mass of the matrix (used as the termination measure of
`check_mutation_chain`). -/
def mass (b : Barcode) : Nat :=
  (b.rows.map (fun r => rowSumF b.cols (b.val r))).sum

/-- `df_barcodes.drop(columns=df_barcodes.columns[df_barcodes.sum(axis=0) == 0])`:
drop every column whose total over all rows is zero. -/
def dropZero (b : Barcode) : Barcode :=
  { b with cols := b.cols.filter (fun c => decide (colSum b c ≠ 0)) }

/-- One step of the flip-pair loop of `reversion_checking`: if `flip d` is a
column (pair membership is computed once, against `cols0`), subtract the
row-wise minimum of the two paired columns from both
(`df_barcodes[fp] = df_barcodes[fp].subtract(df_barcodes[fp].min(axis=1), axis=0)`). -/
def rcStep (cols0 : List Tok) (v : String → Tok → Nat) (d : Tok) : String → Tok → Nat :=
  if flip d ∈ cols0 then
    fun r c => if c = d ∨ c = flip d then v r c - min (v r d) (v r (flip d)) else v r c
  else v

/-- `generate_barcodes.reversion_checking`.  The Python code builds the pair
list `[(d, flip d) for d in cols if flip d in cols]`, deduplicates it through
`set()` (whose iteration order is unspecified) and applies the row-wise
subtraction pair by pair; we fold the subtraction over the columns in column
order — reprocessing the mirror image of a pair subtracts a zero minimum, so
the resulting values do not depend on the processing order — and then drop
the all-zero columns. -/
def reversion_checking (b : Barcode) : Barcode :=
  dropZero { b with val := b.cols.foldl (rcStep b.cols) b.val }

/-- The rows of the barcode whose entries in both constituent columns are
positive: `df_barcodes[(df_barcodes[sm[0]] > 0) & (df_barcodes[sm[1]] > 0)]`. -/
def linSeq (b : Barcode) (a bb : Tok) : List String :=
  b.rows.filter (fun r => decide (0 < b.val r a) && decide (0 < b.val r bb))

/-- Lines 188-199 of `generate_barcodes.py`: create the combined column with
value 1 on the joint-pattern rows (and 0 elsewhere), or overwrite an existing
combined column with 1 on those rows. -/
def setCombined (b : Barcode) (cc : Tok) (lin : List String) : Barcode :=
  if cc ∈ b.cols then
    { b with val := fun r c => if c = cc ∧ r ∈ lin then 1 else b.val r c }
  else
    { b with cols := b.cols ++ [cc],
             val := fun r c => if c = cc then (if r ∈ lin then 1 else 0) else b.val r c }

/-- Line 201: `df_barcodes.loc[lin_seq.index, sm[0:2]] -= 1`. -/
def decrPair (b : Barcode) (a bb : Tok) (lin : List String) : Barcode :=
  { b with val := fun r c =>
      if (c = a ∨ c = bb) ∧ r ∈ lin then b.val r c - 1 else b.val r c }

/-- The body of the `for i, sm in enumerate(seq_muts)` loop of
`check_mutation_chain` for a single confirmed triple `sm`. -/
def applyStep (b : Barcode) (sm : Tok × Tok × Tok) : Barcode :=
  let lin := linSeq b sm.1 sm.2.1
  decrPair (setCombined b sm.2.2 lin) sm.1 sm.2.1 lin

/-- The whole `for` loop: apply every confirmed triple in order, each on the
matrix as mutated by the previous triples. -/
def applyChains (b : Barcode) : List (Tok × Tok × Tok) → Barcode
  | [] => b
  | sm :: rest => applyChains (applyStep b sm) rest

/-- The double comprehension of `identify_chains` (lines 156-164): all pairs
of columns `(d, cols[j])` with `flip_sites[i] == sites[j]` that are not flip
partners, together with the combined token `d[0:len(d)-1] + cols[j][-1]`. -/
def chainCandidates (cols : List Tok) : List (Tok × Tok × Tok) :=
  cols.flatMap (fun d =>
    cols.filterMap (fun d2 =>
      if flipSite d = site d2 ∧ flip d ≠ d2 then
        some (d, d2, site d ++ pyLast d2)
      else none))

/-- Lines 167-171: a candidate is kept when at least one lineage has positive
entries in both constituent columns. -/
def observed (b : Barcode) (sm : Tok × Tok × Tok) : Bool :=
  b.rows.any (fun r => decide (0 < b.val r sm.1) && decide (0 < b.val r sm.2.1))

/-- Lines 173-177: keep only the first candidate per numeric site
(`sortFun` of the combined token), scanning in order; `seen` carries the
sites of all earlier candidates. -/
def dedupBySite (seen : List Nat) : List (Tok × Tok × Tok) → List (Tok × Tok × Tok)
  | [] => []
  | sm :: rest =>
      (if sortFun sm.2.2 ∈ seen then [] else [sm]) ++
        dedupBySite (seen ++ [sortFun sm.2.2]) rest

/-- `generate_barcodes.identify_chains`. -/
def identify_chains (b : Barcode) : List (Tok × Tok × Tok) :=
  dedupBySite [] ((chainCandidates b.cols).filter (observed b))

/-- One pass of the `while` loop of `check_mutation_chain`: apply every
confirmed triple, drop all-zero columns, re-run `reversion_checking`. -/
def chainPass (b : Barcode) : Barcode :=
  reversion_checking (dropZero (applyChains b (identify_chains b)))

/-- Fuelled iteration of `chainPass`; the fuel is only a structural-recursion
device, `check_mutation_chain` supplies enough of it for the loop to reach
its fixpoint (theorem `chainIter_fixpoint`). -/
def chainIter : Nat → Barcode → Barcode
  | 0, b => b
  | n + 1, b => if identify_chains b = [] then b else chainIter n (chainPass b)

/-- `generate_barcodes.check_mutation_chain`: loop until `identify_chains`
returns no confirmed candidates. -/
def check_mutation_chain (b : Barcode) : Barcode := chainIter (mass b + 1) b

/-- `generate_barcodes.check_no_flip_pairs`, abstracted over the column names
of the barcode file (the function reads the CSV and inspects only
`df_barcodes.columns`): collect all flip pairs and raise (`Except.error`)
exactly when the list is non-empty. -/
def check_no_flip_pairs (cols : List Tok) : Except (List (Tok × Tok)) Unit :=
  let fps := cols.filterMap (fun d => if flip d ∈ cols then some (d, flip d) else none)
  if fps = [] then Except.ok () else Except.error fps

/-- Lines 285-292 of `create_barcodes_from_lineage_paths`: the final
`check_no_flip_pairs` call is wrapped in `try/except` whose handler only
logs, so the function returns normally whether or not the check raised. -/
def create_barcodes_finalize (b : Barcode) : Except (List (Tok × Tok)) Barcode :=
  match check_no_flip_pairs b.cols with
  | Except.ok _ => Except.ok b
  | Except.error _ => Except.ok b

/-! ### `parse_tree_paths` (generate_barcodes.py, lines 12-30) -/

/-- Python `text.split(sep)` for a one-character separator on `List Char`:
`"".split(c)` is `[""]`, separators at the ends produce empty pieces. -/
def splitOnChar (sep : Char) : List Char → List (List Char)
  | [] => [[]]
  | c :: rest =>
      match splitOnChar sep rest with
      | [] => [[]]
      | cur :: done => if c = sep then [] :: cur :: done else (c :: cur) :: done

/-- Python `text.strip(ch)` for a one-character strip set: remove every
leading and trailing occurrence of `ch`. -/
def pyStripChar (ch : Char) (l : List Char) : List Char :=
  ((l.dropWhile (fun c => c == ch)).reverse.dropWhile (fun c => c == ch)).reverse

/-- The lambda of `parse_tree_paths`:
`x.replace(" ", "").strip(">").split(">")`. -/
def pySplitPath (l : List Char) : List (List Char) :=
  splitOnChar '>' (pyStripChar '>' (l.filter (fun c => c ≠ ' ')))

/-- `df.drop_duplicates(keep="last")` after `df.set_index("clade")`: pandas
ignores the index, so a row survives exactly when no LATER row carries the
same `from_tree_root` value (`none` models NaN, and NaNs are equal for
`drop_duplicates`).  The clade label plays no part in the comparison. -/
def dropDupKeepLast : List (String × Option (List Char)) → List (String × Option (List Char))
  | [] => []
  | x :: xs =>
      if x.2 ∈ xs.map Prod.snd then dropDupKeepLast xs else x :: dropDupKeepLast xs

/-- `generate_barcodes.parse_tree_paths` on the `(clade, from_tree_root)`
table: set the clade index, `drop_duplicates(keep="last")`, `fillna("")`,
then split each path string. -/
def parse_tree_paths (l : List (String × Option (List Char))) :
    List (String × List (List Char)) :=
  (dropDupKeepLast l).map (fun x => (x.1, pySplitPath (x.2.getD [])))

/-! ### `ref_muts.py` -/

/-- Characters matched by the second group `[A-Za-z0-9,]` of `MUT_PATTERN`. -/
def isMutChar (c : Char) : Bool := c.isAlpha || c.isDigit || c == ','

/-- One match attempt of `MUT_PATTERN = ([^:]+):([A-Za-z0-9,]+)` at the start
of `s`: a non-empty colon-free run, a colon, then a non-empty run of
mutation characters; returns the two groups and the rest of the string. -/
def mutMatch (s : List Char) : Option (List Char × List Char × List Char) :=
  let g1 := s.takeWhile (fun c => c ≠ ':')
  if g1 = [] then none
  else
    match s.drop g1.length with
    | ':' :: r2 =>
        let g2 := r2.takeWhile isMutChar
        if g2 = [] then none else some (g1, g2, r2.drop g2.length)
    | _ => none

/-- `re.findall(MUT_PATTERN, s)`: scan left to right, on failure advance one
character, on success continue after the match.  The fuel argument (the
remaining length) makes the recursion structural. -/
def findAllMutF : Nat → List Char → List (List Char × List Char)
  | 0, _ => []
  | _ + 1, [] => []
  | fuel + 1, s@(_ :: rest) =>
      match mutMatch s with
      | some (g1, g2, remaining) => (g1, g2) :: findAllMutF fuel remaining
      | none => findAllMutF fuel rest

/-- `MUT_PATTERN.findall(s)`. -/
def findAllMut (s : List Char) : List (List Char × List Char) :=
  findAllMutF s.length s

/-- Python `str.strip()` (whitespace from both ends; ASCII whitespace
suffices for the sample-mutation tables). -/
def pyStripWS (l : List Char) : List Char :=
  ((l.dropWhile Char.isWhitespace).reverse.dropWhile Char.isWhitespace).reverse

/-- Insertion into a Python (Ordered)Dict built from a pair sequence: a later
binding of an existing key overwrites the value in place, a new key is
appended at the end. -/
def odInsert (k : List Char) (v : List (List Char)) :
    List (List Char × List (List Char)) → List (List Char × List (List Char))
  | [] => [(k, v)]
  | (k0, v0) :: rest => if k0 = k then (k0, v) :: rest else (k0, v0) :: odInsert k v rest

/-- `ref_muts._extract_mutations`: `OrderedDict()` for a null or falsy
mutation string, otherwise
`OrderedDict((k.strip(), v.split(",")) for k, v in reversed(MUT_PATTERN.findall(s)))`. -/
def _extract_mutations (ms : Option (List Char)) : List (List Char × List (List Char)) :=
  match ms with
  | none => []
  | some [] => []
  | some s =>
      ((findAllMut s).reverse).foldl
        (fun acc kv => odInsert (pyStripWS kv.1) (splitOnChar ',' kv.2) acc) []

/-- The per-position record of `_reverse_mutations_to_root`:
`{"base": ..., "mut": ...}` (one-character strings, or empty in the
sentinel entry). -/
structure PosMut where
  base : List Char
  mutb : List Char
deriving DecidableEq, Repr

/-- One mutation string `i` of `_reverse_mutations_to_root`'s inner loop:
`nuc_loc = int(i[1:-1])`; an existing position has only its `mut` field
overwritten with `i[0]`, a new position is appended with
`base = i[-1], mut = i[0]`. -/
def rmStep (acc : List (Nat × PosMut)) (i : List Char) : List (Nat × PosMut) :=
  let loc := natOfDigits ((i.drop 1).dropLast)
  if (acc.lookup loc).isSome then
    acc.map (fun p => if p.1 = loc then (p.1, ⟨p.2.base, i.take 1⟩) else p)
  else
    acc ++ [(loc, ⟨pyLast i, i.take 1⟩)]

/-- `ref_muts._reverse_mutations_to_root`: the sentinel
`{0: {"base": "", "mut": ""}}` for the empty mutation map, otherwise the
tip-to-root walk over all mutation strings in dict order. -/
def _reverse_mutations_to_root (muts : List (List Char × List (List Char))) :
    List (Nat × PosMut) :=
  if muts = [] then [(0, ⟨[], []⟩)]
  else muts.foldl (fun acc kv => kv.2.foldl rmStep acc) []

/-- Python `seq[: key - 1]` for a non-negative `key`: `key = 0` gives the
slice `[:-1]` (all but the last character), `key ≥ 1` gives the first
`key - 1` characters. -/
def pySliceToPred (s : List Char) (key : Nat) : List Char :=
  if key = 0 then s.dropLast else s.take (key - 1)

/-- `ref_muts._construct_root_sequence`: splice `value["mut"]` at each
recorded position, in map-iteration order
(`seq.seq = seq.seq[: key - 1] + value["mut"] + seq.seq[key:]`). -/
def _construct_root_sequence (rm : List (Nat × PosMut)) (s : List Char) : List Char :=
  rm.foldl (fun acc kv => pySliceToPred acc kv.1 ++ kv.2.mutb ++ acc.drop kv.1) s

/-- The reconstruction of one candidate root sequence in the inference-mode
loop of `process_and_reroot_lineages` (line 168 and 178). -/
def buildRootSeq (m : List Char) (sq : List Char) : List Char :=
  _construct_root_sequence (_reverse_mutations_to_root (_extract_mutations (some m))) sq

/-- The pre-filter at lines 161-163: samples whose `mutations` entry is
non-null (`notnull`), in table order. -/
def validSamples (tbl : List (String × Option (List Char))) : List (String × List Char) :=
  tbl.filterMap (fun p => p.2.map (fun m => (p.1, m)))

/-- The inference-mode collection loop (lines 164-178 of `ref_muts.py`):
for each valid sample in order, look its id up in the FASTA dict; a missing
id logs a warning and `break`s — the surviving candidate list is therefore
cut off at the first missing sample. -/
def collectRootSeqs (seqs : List (String × List Char)) :
    List (String × List Char) → List (List Char)
  | [] => []
  | (sid, m) :: rest =>
      match seqs.lookup sid with
      | none => []
      | some sq => buildRootSeq m sq :: collectRootSeqs seqs rest

/-- The sample ids that actually contribute a candidate root sequence in
`collectRootSeqs` (same control flow, recording ids instead of sequences). -/
def collectedSamples (seqs : List (String × List Char)) :
    List (String × List Char) → List String
  | [] => []
  | (sid, _) :: rest =>
      match seqs.lookup sid with
      | none => []
      | some _ => sid :: collectedSamples seqs rest

/-! ### `_derive_root_sequence` (ref_muts.py, lines 82-97) -/

/-- `x.upper() in ["A", "T", "C", "G", "N"]`. -/
def validNuc (c : Char) : Bool :=
  c.toUpper == 'A' || c.toUpper == 'T' || c.toUpper == 'C' || c.toUpper == 'G' ||
    c.toUpper == 'N'

/-- `len(set(nucs)) == 1`. -/
def allEqual : List Char → Bool
  | [] => false
  | c :: rest => rest.all (fun x => x == c)

/-- The comprehension at lines 91-95: keep a nucleotide when it is a valid
base or when all nucleotides at the position are identical (the name `nucs`
inside the condition still denotes the unfiltered list). -/
def filterNucs (nucs : List Char) : List Char :=
  nucs.filter (fun x => validNuc x || allEqual nucs)

/-- Python `max(iterable, key=counts)`: first element, replaced only by a
strictly larger key while scanning; `None` for the empty iterable (where
Python raises `ValueError`). -/
def pyMaxByCount (counts : Char → Nat) : List Char → Option Char
  | [] => none
  | c :: rest => some (rest.foldl (fun best x => if counts best < counts x then x else best) c)

/-- An admissible enumeration of a Python `set`: lists each distinct element
of its argument exactly once.  CPython's actual iteration order is
hash-table order, which is unspecified (and hash-randomised), so
`_derive_root_sequence` is modelled relative to any such enumeration. -/
def SetEnum (σ : List Char → List Char) : Prop :=
  ∀ l : List Char, (σ l).Nodup ∧ ∀ c, c ∈ σ l ↔ c ∈ l

/-- `max(set(nucs), key=nucs.count)` for one position, on the already
filtered list. -/
def deriveChar (σ : List Char → List Char) (nucs : List Char) : Option Char :=
  pyMaxByCount (fun c => (filterNucs nucs).count c) (σ (filterNucs nucs))

/-- Option-valued traversal (the consensus loop fails, as Python does with
`ValueError`, when some position leaves no nucleotide to take a maximum
over). -/
def optTraverse (f : Nat → Option Char) : List Nat → Option (List Char)
  | [] => some []
  | i :: rest =>
      match f i, optTraverse f rest with
      | some c, some cs => some (c :: cs)
      | _, _ => none

/-- `ref_muts._derive_root_sequence`, relative to a set-enumeration `σ`:
for each position of the first candidate, gather the nucleotides of all
candidates, filter them, and append the most common one. -/
def _derive_root_sequence (σ : List Char → List Char) (seqs : List (List Char)) :
    Option (List Char) :=
  optTraverse (fun i => deriveChar σ (seqs.map (fun s => s.getD i ' ')))
    (List.range (seqs.headD []).length)

/-! ### Token lemmas -/

/-- A column standing in the chain relation with itself would be its own flip
partner: `flipSite d = site d` forces `flip d = d`. -/
theorem flip_eq_of_flipSite_eq_site {d : Tok} (h : flipSite d = site d) : flip d = d := by
  cases d with
  | nil => rfl
  | cons ch rest =>
    cases rest with
    | nil => simp [flipSite, site] at h
    | cons y t =>
      have hd : (ch :: y :: t).dropLast = ch :: (y :: t).dropLast := List.dropLast_cons₂
      rw [site, hd, flipSite] at h
      obtain ⟨h1, -⟩ := List.cons.injEq .. ▸ h
      have hne : y :: t ≠ [] := by simp
      have hlast : (y :: t).getLastD ch = (y :: t).getLast hne := by
        simp [List.getLastD_eq_getLast?, List.getLast?_eq_getLast]
      show (y :: t).getLastD ch :: ((y :: t).dropLast ++ [ch]) = ch :: y :: t
      rw [hlast] at h1 ⊢
      rw [h1, ← h1]
      rw [List.dropLast_append_getLast hne]

/-! ### `reversion_checking`: pointwise decrease, pair minima, idempotence -/

theorem rcStep_le (cols0 : List Tok) (v : String → Tok → Nat) (d : Tok) (r : String)
    (c : Tok) : rcStep cols0 v d r c ≤ v r c := by
  unfold rcStep
  split
  · dsimp only
    split
    · exact Nat.sub_le _ _
    · exact Nat.le_refl _
  · exact Nat.le_refl _

theorem rcFold_le (cols0 : List Tok) :
    ∀ (l : List Tok) (v : String → Tok → Nat) (r : String) (c : Tok),
      (l.foldl (rcStep cols0) v) r c ≤ v r c := by
  intro l
  induction l with
  | nil => intro v r c; exact Nat.le_refl _
  | cons d t ih =>
    intro v r c
    calc ((d :: t).foldl (rcStep cols0) v) r c
        = (t.foldl (rcStep cols0) (rcStep cols0 v d)) r c := by rw [List.foldl_cons]
      _ ≤ rcStep cols0 v d r c := ih _ r c
      _ ≤ v r c := rcStep_le cols0 v d r c

/-- After the fold has processed a column `d` whose flip partner is among the
pair columns, the row-wise minimum of the pair is zero, and stays zero for
the rest of the fold. -/
theorem rcFold_minzero (cols0 : List Tok) :
    ∀ (l : List Tok) (v : String → Tok → Nat) (d : Tok), d ∈ l → flip d ∈ cols0 →
      ∀ r : String,
        min ((l.foldl (rcStep cols0) v) r d) ((l.foldl (rcStep cols0) v) r (flip d)) = 0 := by
  intro l
  induction l with
  | nil => intro v d hd; exact absurd hd (List.not_mem_nil d)
  | cons e t ih =>
    intro v d hd hf r
    rw [List.foldl_cons]
    by_cases hdt : d ∈ t
    · exact ih _ d hdt hf r
    · have hde : d = e := by
        rcases List.mem_cons.1 hd with h | h
        · exact h
        · exact absurd h hdt
      subst hde
      have hstep : rcStep cols0 v d r d = 0 ∨ rcStep cols0 v d r (flip d) = 0 := by
        unfold rcStep
        rw [if_pos hf]
        rw [if_pos (Or.inl rfl : d = d ∨ d = flip d),
          if_pos (Or.inr rfl : flip d = d ∨ flip d = flip d)]
        omega
      have h1 := rcFold_le cols0 t (rcStep cols0 v d) r d
      have h2 := rcFold_le cols0 t (rcStep cols0 v d) r (flip d)
      omega

/-- The fold of the second `reversion_checking` run changes nothing on the
matrix rows when every present pair already has row-wise minimum zero. -/
theorem rcFold_id_on (cols0 : List Tok) (rows : List String) (w : String → Tok → Nat)
    (hmin : ∀ d ∈ cols0, flip d ∈ cols0 → ∀ r ∈ rows, min (w r d) (w r (flip d)) = 0) :
    ∀ (l : List Tok), (∀ d ∈ l, d ∈ cols0) →
      ∀ (v : String → Tok → Nat), (∀ r ∈ rows, ∀ c, v r c = w r c) →
      ∀ r ∈ rows, ∀ c, (l.foldl (rcStep cols0) v) r c = w r c := by
  intro l
  induction l with
  | nil => intro _ v hv r hr c; exact hv r hr c
  | cons e t ih =>
    intro hl v hv r hr c
    rw [List.foldl_cons]
    refine ih (fun d hd => hl d (List.mem_cons_of_mem e hd)) _ ?_ r hr c
    intro r' hr' c'
    unfold rcStep
    split
    · dsimp only
      split
      · have h0 : min (w r' e) (w r' (flip e)) = 0 :=
          hmin e (hl e (List.mem_cons_self e t)) (by assumption) r' hr'
        rw [hv r' hr' e, hv r' hr' (flip e), hv r' hr' c', h0, Nat.sub_zero]
      · exact hv r' hr' c'
    · exact hv r' hr' c'

theorem reversion_checking_rows (b : Barcode) : (reversion_checking b).rows = b.rows := rfl

theorem reversion_checking_cols_sub (b : Barcode) :
    ∀ c ∈ (reversion_checking b).cols, c ∈ b.cols := by
  intro c hc
  exact (List.mem_filter.1 hc).1

/-- Part (a) of the post-state of `reversion_checking`: every flip pair still
present has row-wise minimum zero. -/
theorem rc_minzero (b : Barcode) :
    ∀ d ∈ (reversion_checking b).cols, flip d ∈ (reversion_checking b).cols →
      ∀ r : String,
        min ((reversion_checking b).val r d) ((reversion_checking b).val r (flip d)) = 0 := by
  intro d hd hf r
  have hd' : d ∈ b.cols := reversion_checking_cols_sub b d hd
  have hf' : flip d ∈ b.cols := reversion_checking_cols_sub b (flip d) hf
  exact rcFold_minzero b.cols b.cols b.val d hd' hf' r

/-- Part (b): no surviving column has zero total. -/
theorem rc_colSum_ne_zero (b : Barcode) :
    ∀ c ∈ (reversion_checking b).cols, colSum (reversion_checking b) c ≠ 0 := by
  intro c hc
  have h := (List.mem_filter.1 hc).2
  exact of_decide_eq_true h

/-! ### Claim C3, C4: post-state and idempotence of `reversion_checking` -/

/-- Claim C3: for every barcode matrix with non-negative integer entries, in
the output of `reversion_checking`: (a) for every column `d` whose flip
partner is also a column, every row has `min(value at d, value at flip d) = 0`,
and (b) no remaining column has total sum zero over all rows.  (The
hypothesis excludes the empty token, on which Python's `d[-1]` raises.) -/
theorem C3_reversion_checking_post (b : Barcode) (hEmp : [] ∉ b.cols) :
    (∀ d ∈ (reversion_checking b).cols, flip d ∈ (reversion_checking b).cols →
      ∀ r ∈ (reversion_checking b).rows,
        min ((reversion_checking b).val r d) ((reversion_checking b).val r (flip d)) = 0) ∧
    (∀ c ∈ (reversion_checking b).cols, colSum (reversion_checking b) c ≠ 0) := by
  refine ⟨fun d hd hf r _ => rc_minzero b d hd hf r, rc_colSum_ne_zero b⟩

/-- Claim C4: `reversion_checking` is idempotent — the second application
returns the same columns, the same rows and the same values on every row. -/
theorem C4_reversion_checking_idempotent (b : Barcode) (hEmp : [] ∉ b.cols) :
    (reversion_checking (reversion_checking b)).cols = (reversion_checking b).cols ∧
    (reversion_checking (reversion_checking b)).rows = (reversion_checking b).rows ∧
    ∀ r ∈ b.rows, ∀ c,
      (reversion_checking (reversion_checking b)).val r c = (reversion_checking b).val r c := by
  set b' := reversion_checking b with hb'
  have hrows : b'.rows = b.rows := rfl
  have hvals : ∀ r ∈ b.rows, ∀ c,
      (b'.cols.foldl (rcStep b'.cols) b'.val) r c = b'.val r c := by
    refine rcFold_id_on b'.cols b.rows b'.val ?_ b'.cols (fun d hd => hd) b'.val
      (fun r _ c => rfl)
    intro d hd hf r _
    exact rc_minzero b d hd hf r
  refine ⟨?_, rfl, fun r hr c => hvals r hr c⟩
  show b'.cols.filter _ = b'.cols
  refine List.filter_eq_self.2 ?_
  intro c hc
  have hsum : colSum { b' with val := b'.cols.foldl (rcStep b'.cols) b'.val } c
      = colSum b' c := by
    unfold colSum
    exact congrArg List.sum (List.map_congr_left (fun r hr => hvals r hr c))
  rw [decide_eq_true_iff, hsum]
  exact rc_colSum_ne_zero b c hc

/-- A two-lineage matrix carrying the surviving flip pair `A1T` / `T1A`
(`A1T` supported by `L1`, `T1A` by `L2`). -/
def bcFlipPair : Barcode :=
  { rows := ["L1", "L2"],
    cols := [['A', '1', 'T'], ['T', '1', 'A']],
    val := fun r c =>
      if r = "L1" ∧ c = ['A', '1', 'T'] then 1
      else if r = "L2" ∧ c = ['T', '1', 'A'] then 1
      else 0 }

/-- Witness for C3 at the concrete matrix `bcFlipPair`. -/
theorem C3_witness :
    ([] ∉ bcFlipPair.cols) ∧
    ['A', '1', 'T'] ∈ (reversion_checking bcFlipPair).cols ∧
    flip ['A', '1', 'T'] ∈ (reversion_checking bcFlipPair).cols ∧
    "L1" ∈ (reversion_checking bcFlipPair).rows ∧
    min ((reversion_checking bcFlipPair).val "L1" ['A', '1', 'T'])
      ((reversion_checking bcFlipPair).val "L1" (flip ['A', '1', 'T'])) = 0 :=
  ⟨by decide, by decide, by decide, by decide,
    (C3_reversion_checking_post bcFlipPair (by decide)).1 ['A', '1', 'T'] (by decide)
      (by decide) "L1" (by decide)⟩

/-- Witness for C4 at the concrete matrix `bcFlipPair`. -/
theorem C4_witness :
    ([] ∉ bcFlipPair.cols) ∧
    (reversion_checking (reversion_checking bcFlipPair)).cols
      = (reversion_checking bcFlipPair).cols ∧
    (reversion_checking (reversion_checking bcFlipPair)).val "L1" ['A', '1', 'T']
      = (reversion_checking bcFlipPair).val "L1" ['A', '1', 'T'] :=
  ⟨by decide, (C4_reversion_checking_idempotent bcFlipPair (by decide)).1,
    (C4_reversion_checking_idempotent bcFlipPair (by decide)).2.2 "L1" (by decide)
      ['A', '1', 'T']⟩

/-! ### Claims C8, C9: the final flip-pair check -/

/-- Claim C9: `check_no_flip_pairs` raises exactly when some column name has
its flip partner among the column names; it inspects names only (its model
takes only the column list), so values play no part. -/
theorem C9_check_no_flip_pairs_iff (cols : List Tok) (hEmp : [] ∉ cols) :
    (∃ d ∈ cols, flip d ∈ cols) ↔ ∃ e, check_no_flip_pairs cols = Except.error e := by
  unfold check_no_flip_pairs
  constructor
  · rintro ⟨d, hd, hf⟩
    have hmem : (d, flip d) ∈ cols.filterMap
        (fun d => if flip d ∈ cols then some (d, flip d) else none) :=
      List.mem_filterMap.2 ⟨d, hd, by rw [if_pos hf]⟩
    have hne : cols.filterMap
        (fun d => if flip d ∈ cols then some (d, flip d) else none) ≠ [] :=
      List.ne_nil_of_mem hmem
    rw [if_neg hne]
    exact ⟨_, rfl⟩
  · rintro ⟨e, he⟩
    by_cases hnil : cols.filterMap
        (fun d => if flip d ∈ cols then some (d, flip d) else none) = []
    · rw [if_pos hnil] at he
      exact absurd he (by simp)
    · obtain ⟨p, hp⟩ := List.exists_mem_of_ne_nil _ hnil
      obtain ⟨d, hd, hif⟩ := List.mem_filterMap.1 hp
      by_cases hfd : flip d ∈ cols
      · exact ⟨d, hd, hfd⟩
      · rw [if_neg hfd] at hif
        exact absurd hif (by simp)

/-- Witness for C9: on columns `[A1T, T1A]` the checker raises. -/
theorem C9_witness :
    ([] ∉ bcFlipPair.cols) ∧
    ∃ e, check_no_flip_pairs bcFlipPair.cols = Except.error e :=
  ⟨by decide, (C9_check_no_flip_pairs_iff bcFlipPair.cols (by decide)).1
    ⟨['A', '1', 'T'], by decide, by decide⟩⟩

/-- Counterexample to claim C8: on the final matrix `bcFlipPair`, which still
contains the unresolved flip pair `A1T` / `T1A` (so `check_no_flip_pairs`
raises), `create_barcodes_from_lineage_paths` nevertheless completes
normally: the exception is caught by the `try/except` at lines 286-292 and
only logged. -/
theorem C8_counterexample :
    check_no_flip_pairs bcFlipPair.cols
      = Except.error [(['A', '1', 'T'], ['T', '1', 'A']), (['T', '1', 'A'], ['A', '1', 'T'])] ∧
    create_barcodes_finalize bcFlipPair = Except.ok bcFlipPair := by
  exact ⟨rfl, rfl⟩

/-- Claim C8 as amended: `check_no_flip_pairs` itself raises whenever a flip
pair of column names is present, but `create_barcodes_from_lineage_paths`
catches the exception and completes normally, so the violation is not
propagated to its caller. -/
theorem C8_flip_pair_failure_swallowed (b : Barcode) :
    create_barcodes_finalize b = Except.ok b ∧
    ((∃ d ∈ b.cols, flip d ∈ b.cols) → check_no_flip_pairs b.cols ≠ Except.ok ()) := by
  constructor
  · unfold create_barcodes_finalize
    cases check_no_flip_pairs b.cols <;> rfl
  · rintro ⟨d, hd, hf⟩
    unfold check_no_flip_pairs
    have hmem : (d, flip d) ∈ b.cols.filterMap
        (fun d => if flip d ∈ b.cols then some (d, flip d) else none) :=
      List.mem_filterMap.2 ⟨d, hd, by rw [if_pos hf]⟩
    rw [if_neg (List.ne_nil_of_mem hmem)]
    simp

/-- Witness for the amended C8 at the concrete matrix `bcFlipPair`. -/
theorem C8_witness :
    create_barcodes_finalize bcFlipPair = Except.ok bcFlipPair ∧
    check_no_flip_pairs bcFlipPair.cols ≠ Except.ok () :=
  ⟨(C8_flip_pair_failure_swallowed bcFlipPair).1,
    (C8_flip_pair_failure_swallowed bcFlipPair).2 ⟨['A', '1', 'T'], by decide, by decide⟩⟩

/-! ### Sum bookkeeping helpers -/

theorem rowSumF_perm {S T : List Tok} (h : S.Perm T) (f : Tok → Nat) :
    rowSumF S f = rowSumF T f :=
  (h.map f).sum_eq

theorem rowSumF_congr {S : List Tok} {f g : Tok → Nat} (h : ∀ c ∈ S, f c = g c) :
    rowSumF S f = rowSumF S g :=
  congrArg List.sum (List.map_congr_left h)

/-- Removal of one occurrence of a token (own definition, used for sum
extraction). -/
def removeTok (a : Tok) : List Tok → List Tok
  | [] => []
  | x :: xs => if x = a then xs else x :: removeTok a xs

theorem removeTok_perm {a : Tok} : ∀ {S : List Tok}, a ∈ S → S.Perm (a :: removeTok a S) := by
  intro S
  induction S with
  | nil => intro h; exact absurd h (List.not_mem_nil a)
  | cons x xs ih =>
    intro h
    by_cases hx : x = a
    · subst hx
      rw [removeTok, if_pos rfl]
    · rw [removeTok, if_neg hx]
      have ha : a ∈ xs := by
        rcases List.mem_cons.1 h with h' | h'
        · exact absurd h'.symm hx
        · exact h'
      exact ((ih ha).cons x).trans (List.Perm.swap a x (removeTok a xs))

theorem mem_of_mem_removeTok {a c : Tok} :
    ∀ {S : List Tok}, c ∈ removeTok a S → c ∈ S := by
  intro S
  induction S with
  | nil => intro h; exact absurd h (List.not_mem_nil c)
  | cons x xs ih =>
    intro h
    rw [removeTok] at h
    by_cases hx : x = a
    · rw [if_pos hx] at h
      exact List.mem_cons_of_mem x h
    · rw [if_neg hx] at h
      rcases List.mem_cons.1 h with h' | h'
      · exact h' ▸ List.mem_cons_self x xs
      · exact List.mem_cons_of_mem x (ih h')

theorem mem_removeTok_of_ne {a c : Tok} (hca : c ≠ a) :
    ∀ {S : List Tok}, c ∈ S → c ∈ removeTok a S := by
  intro S
  induction S with
  | nil => intro h; exact absurd h (List.not_mem_nil c)
  | cons x xs ih =>
    intro h
    rw [removeTok]
    by_cases hx : x = a
    · rw [if_pos hx]
      rcases List.mem_cons.1 h with h' | h'
      · exact absurd (h'.trans hx) hca
      · exact h'
    · rw [if_neg hx]
      rcases List.mem_cons.1 h with h' | h'
      · exact h' ▸ List.mem_cons_self x _
      · exact List.mem_cons_of_mem x (ih h')

theorem nodup_removeTok {a : Tok} :
    ∀ {S : List Tok}, S.Nodup → (removeTok a S).Nodup := by
  intro S
  induction S with
  | nil => intro h; exact h
  | cons x xs ih =>
    intro h
    rw [removeTok]
    rcases List.nodup_cons.1 h with ⟨hx, hxs⟩
    by_cases hxa : x = a
    · rw [if_pos hxa]; exact hxs
    · rw [if_neg hxa]
      exact List.nodup_cons.2 ⟨fun hmem => hx (mem_of_mem_removeTok hmem), ih hxs⟩

theorem not_mem_removeTok_self {a : Tok} :
    ∀ {S : List Tok}, S.Nodup → a ∉ removeTok a S := by
  intro S
  induction S with
  | nil => intro _ h; exact absurd h (List.not_mem_nil a)
  | cons x xs ih =>
    intro hN h
    rcases List.nodup_cons.1 hN with ⟨hx, hxs⟩
    rw [removeTok] at h
    by_cases hxa : x = a
    · rw [if_pos hxa] at h
      exact hx (hxa ▸ h)
    · rw [if_neg hxa] at h
      rcases List.mem_cons.1 h with h' | h'
      · exact hxa h'.symm
      · exact ih hxs h'

theorem ne_of_mem_removeTok {a c : Tok} {S : List Tok} (hN : S.Nodup)
    (h : c ∈ removeTok a S) : c ≠ a :=
  fun hc => not_mem_removeTok_self hN (hc ▸ h)

theorem rowSumF_extract1 {S : List Tok} (f : Tok → Nat) {a : Tok} (ha : a ∈ S) :
    rowSumF S f = f a + rowSumF (removeTok a S) f := by
  have h := rowSumF_perm (removeTok_perm ha) f
  rw [h]
  unfold rowSumF
  rw [List.map_cons, List.sum_cons]

theorem rowSumF_append (S1 S2 : List Tok) (f : Tok → Nat) :
    rowSumF (S1 ++ S2) f = rowSumF S1 f + rowSumF S2 f := by
  simp [rowSumF]

theorem rowSumF_extract2 {S : List Tok} (f : Tok → Nat) {a bb : Tok}
    (ha : a ∈ S) (hb : bb ∈ S) (hab : a ≠ bb) :
    rowSumF S f = f a + (f bb + rowSumF (removeTok bb (removeTok a S)) f) := by
  have hb' : bb ∈ removeTok a S := mem_removeTok_of_ne (Ne.symm hab) hb
  rw [rowSumF_extract1 f ha, rowSumF_extract1 f hb']

theorem rowSumF_filter_le (p : Tok → Bool) (S : List Tok) (f : Tok → Nat) :
    rowSumF (S.filter p) f ≤ rowSumF S f :=
  ((List.filter_sublist S).map f).sum_le_sum (by simp)

/-! ### `applyStep`: value formulas and mass accounting -/

theorem decrPair_val (b : Barcode) (a bb : Tok) (lin : List String) (r : String) (c : Tok) :
    (decrPair b a bb lin).val r c =
      if (c = a ∨ c = bb) ∧ r ∈ lin then b.val r c - 1 else b.val r c := rfl

theorem setCombined_val_mem (b : Barcode) (cc : Tok) (lin : List String)
    (h : cc ∈ b.cols) (r : String) (c : Tok) :
    (setCombined b cc lin).val r c = if c = cc ∧ r ∈ lin then 1 else b.val r c := by
  unfold setCombined
  rw [if_pos h]

theorem setCombined_val_notmem (b : Barcode) (cc : Tok) (lin : List String)
    (h : cc ∉ b.cols) (r : String) (c : Tok) :
    (setCombined b cc lin).val r c
      = if c = cc then (if r ∈ lin then 1 else 0) else b.val r c := by
  unfold setCombined
  rw [if_neg h]

theorem setCombined_cols (b : Barcode) (cc : Tok) (lin : List String) :
    (setCombined b cc lin).cols = if cc ∈ b.cols then b.cols else b.cols ++ [cc] := by
  unfold setCombined
  by_cases h : cc ∈ b.cols
  · rw [if_pos h, if_pos h]
  · rw [if_neg h, if_neg h]

theorem setCombined_rows (b : Barcode) (cc : Tok) (lin : List String) :
    (setCombined b cc lin).rows = b.rows := by
  unfold setCombined
  by_cases h : cc ∈ b.cols
  · rw [if_pos h]
  · rw [if_neg h]

theorem applyStep_eq (b : Barcode) (sm : Tok × Tok × Tok) :
    applyStep b sm = decrPair (setCombined b sm.2.2 (linSeq b sm.1 sm.2.1))
      sm.1 sm.2.1 (linSeq b sm.1 sm.2.1) := rfl

theorem applyStep_rows (b : Barcode) (sm : Tok × Tok × Tok) :
    (applyStep b sm).rows = b.rows := by
  rw [applyStep_eq]
  show (setCombined b sm.2.2 (linSeq b sm.1 sm.2.1)).rows = b.rows
  exact setCombined_rows ..

theorem applyStep_cols (b : Barcode) (sm : Tok × Tok × Tok) :
    (applyStep b sm).cols = if sm.2.2 ∈ b.cols then b.cols else b.cols ++ [sm.2.2] := by
  rw [applyStep_eq]
  show (setCombined b sm.2.2 (linSeq b sm.1 sm.2.1)).cols = _
  exact setCombined_cols ..

theorem linSeq_spec (b : Barcode) (a bb : Tok) (r : String) :
    r ∈ linSeq b a bb ↔ r ∈ b.rows ∧ 0 < b.val r a ∧ 0 < b.val r bb := by
  unfold linSeq
  rw [List.mem_filter]
  simp

/-- Value of `applyStep` on a joint-pattern row. -/
theorem applyStep_val_lin (b : Barcode) (sm : Tok × Tok × Tok) (r : String)
    (hr : r ∈ linSeq b sm.1 sm.2.1) (c : Tok) :
    (applyStep b sm).val r c =
      if c = sm.1 ∨ c = sm.2.1 then (if c = sm.2.2 then 1 else b.val r c) - 1
      else (if c = sm.2.2 then 1 else b.val r c) := by
  rw [applyStep_eq, decrPair_val]
  by_cases hcc : sm.2.2 ∈ b.cols
  · rw [setCombined_val_mem _ _ _ hcc]
    by_cases h1 : c = sm.1 ∨ c = sm.2.1 <;> by_cases h2 : c = sm.2.2 <;>
      simp [h1, h2, hr]
  · rw [setCombined_val_notmem _ _ _ hcc]
    by_cases h1 : c = sm.1 ∨ c = sm.2.1 <;> by_cases h2 : c = sm.2.2 <;>
      simp [h1, h2, hr]

/-- Value of `applyStep` on the other rows: only a freshly created combined
column changes (to 0). -/
theorem applyStep_val_notlin (b : Barcode) (sm : Tok × Tok × Tok) (r : String)
    (hr : r ∉ linSeq b sm.1 sm.2.1) (c : Tok) :
    (applyStep b sm).val r c =
      if c = sm.2.2 ∧ sm.2.2 ∉ b.cols then 0 else b.val r c := by
  rw [applyStep_eq, decrPair_val]
  by_cases hcc : sm.2.2 ∈ b.cols
  · rw [setCombined_val_mem _ _ _ hcc]
    by_cases h2 : c = sm.2.2 <;> simp [h2, hr, hcc]
  · rw [setCombined_val_notmem _ _ _ hcc]
    by_cases h2 : c = sm.2.2 <;> simp [h2, hr, hcc]

/-- On a row outside the joint pattern the row total is unchanged. -/
theorem rowSum_applyStep_notlin (b : Barcode) (sm : Tok × Tok × Tok) (r : String)
    (hr : r ∉ linSeq b sm.1 sm.2.1) :
    rowSumF (applyStep b sm).cols ((applyStep b sm).val r) = rowSumF b.cols (b.val r) := by
  rw [applyStep_cols]
  by_cases hcc : sm.2.2 ∈ b.cols
  · rw [if_pos hcc]
    refine rowSumF_congr (fun c hc => ?_)
    rw [applyStep_val_notlin b sm r hr c,
      if_neg (fun h : c = sm.2.2 ∧ sm.2.2 ∉ b.cols => h.2 hcc)]
  · rw [if_neg hcc, rowSumF_append]
    have h1 : rowSumF b.cols ((applyStep b sm).val r) = rowSumF b.cols (b.val r) := by
      refine rowSumF_congr (fun c hc => ?_)
      rw [applyStep_val_notlin b sm r hr c,
        if_neg (fun h : c = sm.2.2 ∧ sm.2.2 ∉ b.cols => hcc (h.1 ▸ hc))]
    have h2 : rowSumF [sm.2.2] ((applyStep b sm).val r) = 0 := by
      unfold rowSumF
      simp [applyStep_val_notlin b sm r hr sm.2.2, hcc]
    rw [h1, h2]
    omega

/-- On a joint-pattern row the row total strictly decreases. -/
theorem rowSum_applyStep_lin (b : Barcode) (sm : Tok × Tok × Tok)
    (hN : b.cols.Nodup) (ha : sm.1 ∈ b.cols) (hb : sm.2.1 ∈ b.cols)
    (hab : sm.1 ≠ sm.2.1) (r : String) (hr : r ∈ linSeq b sm.1 sm.2.1) :
    rowSumF (applyStep b sm).cols ((applyStep b sm).val r) + 1
      ≤ rowSumF b.cols (b.val r) := by
  obtain ⟨-, hva, hvb⟩ := (linSeq_spec b sm.1 sm.2.1 r).1 hr
  set g := (applyStep b sm).val r with hg
  have hgc : ∀ c, g c =
      if c = sm.1 ∨ c = sm.2.1 then (if c = sm.2.2 then 1 else b.val r c) - 1
      else (if c = sm.2.2 then 1 else b.val r c) :=
    fun c => applyStep_val_lin b sm r hr c
  have hNa : (removeTok sm.1 b.cols).Nodup := nodup_removeTok hN
  have hTmem : ∀ c ∈ removeTok sm.2.1 (removeTok sm.1 b.cols),
      c ≠ sm.1 ∧ c ≠ sm.2.1 := by
    intro c hc
    refine ⟨ne_of_mem_removeTok hN (mem_of_mem_removeTok hc), ne_of_mem_removeTok hNa hc⟩
  have hga : g sm.1 = (if sm.1 = sm.2.2 then 1 else b.val r sm.1) - 1 := by
    rw [hgc sm.1, if_pos (Or.inl rfl)]
  have hgb : g sm.2.1 = (if sm.2.1 = sm.2.2 then 1 else b.val r sm.2.1) - 1 := by
    rw [hgc sm.2.1, if_pos (Or.inr rfl)]
  by_cases hcc : sm.2.2 ∈ b.cols
  · rw [applyStep_cols, if_pos hcc]
    by_cases hcca : sm.2.2 = sm.1
    · -- the combined token coincides with the first constituent
      rw [rowSumF_extract2 g ha hb hab, rowSumF_extract2 (b.val r) ha hb hab]
      have hT : rowSumF (removeTok sm.2.1 (removeTok sm.1 b.cols)) g
          = rowSumF (removeTok sm.2.1 (removeTok sm.1 b.cols)) (b.val r) := by
        refine rowSumF_congr (fun c hc => ?_)
        obtain ⟨h1, h2⟩ := hTmem c hc
        rw [hgc c, if_neg (by tauto), if_neg (fun h => h1 (h.trans hcca))]
      rw [hga, hgb, hT, if_pos hcca.symm,
        if_neg (fun h : sm.2.1 = sm.2.2 => hab (hcca ▸ h).symm)]
      omega
    · by_cases hccb : sm.2.2 = sm.2.1
      · -- the combined token coincides with the second constituent
        rw [rowSumF_extract2 g ha hb hab, rowSumF_extract2 (b.val r) ha hb hab]
        have hT : rowSumF (removeTok sm.2.1 (removeTok sm.1 b.cols)) g
            = rowSumF (removeTok sm.2.1 (removeTok sm.1 b.cols)) (b.val r) := by
          refine rowSumF_congr (fun c hc => ?_)
          obtain ⟨h1, h2⟩ := hTmem c hc
          rw [hgc c, if_neg (by tauto), if_neg (fun h => h2 (h.trans hccb))]
        rw [hga, hgb, hT, if_pos hccb.symm,
          if_neg (fun h : sm.1 = sm.2.2 => hab (h.trans hccb))]
        omega
      · -- the combined token is a third, already existing column
        have hccT : sm.2.2 ∈ removeTok sm.2.1 (removeTok sm.1 b.cols) :=
          mem_removeTok_of_ne hccb (mem_removeTok_of_ne hcca hcc)
        rw [rowSumF_extract2 g ha hb hab, rowSumF_extract2 (b.val r) ha hb hab,
          rowSumF_extract1 g hccT, rowSumF_extract1 (b.val r) hccT]
        have hU : rowSumF (removeTok sm.2.2 (removeTok sm.2.1 (removeTok sm.1 b.cols))) g
            = rowSumF (removeTok sm.2.2 (removeTok sm.2.1 (removeTok sm.1 b.cols)))
                (b.val r) := by
          refine rowSumF_congr (fun c hc => ?_)
          have hcT : c ∈ removeTok sm.2.1 (removeTok sm.1 b.cols) :=
            mem_of_mem_removeTok hc
          obtain ⟨h1, h2⟩ := hTmem c hcT
          have h3 : c ≠ sm.2.2 :=
            ne_of_mem_removeTok (nodup_removeTok hNa) hc
          rw [hgc c, if_neg (by tauto), if_neg h3]
        have hgcc : g sm.2.2 = 1 := by
          rw [hgc sm.2.2, if_neg (by tauto), if_pos rfl]
        rw [hga, hgb, hU, hgcc, if_neg (fun h : sm.1 = sm.2.2 => hcca h.symm),
          if_neg (fun h : sm.2.1 = sm.2.2 => hccb h.symm)]
        omega
  · -- the combined token is a new column, appended at the end
    have hcca : sm.1 ≠ sm.2.2 := fun h => hcc (h ▸ ha)
    have hccb : sm.2.1 ≠ sm.2.2 := fun h => hcc (h ▸ hb)
    rw [applyStep_cols, if_neg hcc, rowSumF_append,
      rowSumF_extract2 g ha hb hab, rowSumF_extract2 (b.val r) ha hb hab]
    have hT : rowSumF (removeTok sm.2.1 (removeTok sm.1 b.cols)) g
        = rowSumF (removeTok sm.2.1 (removeTok sm.1 b.cols)) (b.val r) := by
      refine rowSumF_congr (fun c hc => ?_)
      obtain ⟨h1, h2⟩ := hTmem c hc
      have hcS : c ∈ b.cols := mem_of_mem_removeTok (mem_of_mem_removeTok hc)
      rw [hgc c, if_neg (by tauto), if_neg (fun h : c = sm.2.2 => hcc (h ▸ hcS))]
    have hgcc : rowSumF [sm.2.2] g = 1 := by
      unfold rowSumF
      simp only [List.map_cons, List.map_nil, List.sum_cons, List.sum_nil]
      rw [hgc sm.2.2, if_neg (by tauto), if_pos rfl]
      omega
    rw [hga, hgb, hT, hgcc, if_neg hcca, if_neg hccb]
    omega

theorem mass_applyStep_le (b : Barcode) (sm : Tok × Tok × Tok)
    (hN : b.cols.Nodup) (ha : sm.1 ∈ b.cols) (hb : sm.2.1 ∈ b.cols)
    (hab : sm.1 ≠ sm.2.1) : mass (applyStep b sm) ≤ mass b := by
  unfold mass
  rw [applyStep_rows]
  refine List.sum_le_sum (fun r hrr => ?_)
  by_cases hr : r ∈ linSeq b sm.1 sm.2.1
  · have h := rowSum_applyStep_lin b sm hN ha hb hab r hr
    omega
  · exact le_of_eq (rowSum_applyStep_notlin b sm r hr)

theorem mass_applyStep_lt (b : Barcode) (sm : Tok × Tok × Tok)
    (hN : b.cols.Nodup) (ha : sm.1 ∈ b.cols) (hb : sm.2.1 ∈ b.cols)
    (hab : sm.1 ≠ sm.2.1) (hlin : linSeq b sm.1 sm.2.1 ≠ []) :
    mass (applyStep b sm) < mass b := by
  unfold mass
  rw [applyStep_rows]
  obtain ⟨r0, hr0⟩ := List.exists_mem_of_ne_nil _ hlin
  have hr0rows : r0 ∈ b.rows := ((linSeq_spec b sm.1 sm.2.1 r0).1 hr0).1
  refine List.sum_lt_sum _ _ (fun r hrr => ?_) ⟨r0, hr0rows, ?_⟩
  · by_cases hr : r ∈ linSeq b sm.1 sm.2.1
    · have h := rowSum_applyStep_lin b sm hN ha hb hab r hr
      omega
    · exact le_of_eq (rowSum_applyStep_notlin b sm r hr)
  · have h := rowSum_applyStep_lin b sm hN ha hb hab r0 hr0
    omega

/-- The invariant carried through the chain-resolution loop: pandas column
labels are distinct and non-empty tokens (the Python code indexes `d[-1]`). -/
def ColsOK (b : Barcode) : Prop := b.cols.Nodup ∧ [] ∉ b.cols

theorem applyStep_colsOK (b : Barcode) (sm : Tok × Tok × Tok) (h : ColsOK b)
    (hcc : sm.2.2 ≠ []) :
    ColsOK (applyStep b sm) ∧ b.cols ⊆ (applyStep b sm).cols := by
  have hcols := applyStep_cols b sm
  by_cases hc : sm.2.2 ∈ b.cols
  · rw [if_pos hc] at hcols
    unfold ColsOK
    rw [hcols]
    exact ⟨h, List.Subset.refl _⟩
  · rw [if_neg hc] at hcols
    unfold ColsOK
    rw [hcols]
    refine ⟨⟨?_, ?_⟩, List.subset_append_left _ _⟩
    · rw [List.nodup_append]
      refine ⟨h.1, List.nodup_singleton _, ?_⟩
      intro a hal har
      rw [List.mem_singleton] at har
      exact hc (har ▸ hal)
    · rw [List.mem_append]
      rintro (h1 | h1)
      · exact h.2 h1
      · rw [List.mem_singleton] at h1
        exact hcc h1.symm

theorem applyChains_spec :
    ∀ (l : List (Tok × Tok × Tok)) (b : Barcode), ColsOK b →
      (∀ sm ∈ l, sm.1 ∈ b.cols ∧ sm.2.1 ∈ b.cols ∧ sm.1 ≠ sm.2.1 ∧ sm.2.2 ≠ []) →
      mass (applyChains b l) ≤ mass b ∧ ColsOK (applyChains b l) ∧
        (applyChains b l).rows = b.rows := by
  intro l
  induction l with
  | nil => intro b hOK _; exact ⟨Nat.le_refl _, hOK, rfl⟩
  | cons sm t ih =>
    intro b hOK hsm
    obtain ⟨ha, hb, hab, hcc⟩ := hsm sm (List.mem_cons_self sm t)
    obtain ⟨hOK', hsub⟩ := applyStep_colsOK b sm hOK hcc
    have hrec := ih (applyStep b sm) hOK' (fun sm' h' => by
      obtain ⟨x, y, z, w⟩ := hsm sm' (List.mem_cons_of_mem sm h')
      exact ⟨hsub x, hsub y, z, w⟩)
    have hstep := mass_applyStep_le b sm hOK.1 ha hb hab
    refine ⟨?_, hrec.2.1, ?_⟩
    · show mass (applyChains (applyStep b sm) t) ≤ mass b
      exact le_trans hrec.1 hstep
    · show (applyChains (applyStep b sm) t).rows = b.rows
      rw [hrec.2.2, applyStep_rows]

theorem dropZero_rows (b : Barcode) : (dropZero b).rows = b.rows := rfl

theorem dropZero_mass_le (b : Barcode) : mass (dropZero b) ≤ mass b := by
  unfold mass
  refine List.sum_le_sum (fun r hr => ?_)
  exact rowSumF_filter_le _ _ _

theorem dropZero_colsOK (b : Barcode) (h : ColsOK b) : ColsOK (dropZero b) := by
  unfold ColsOK at h ⊢
  exact ⟨h.1.filter _, fun hmem => h.2 (List.mem_filter.1 hmem).1⟩

theorem rc_mass_le (b : Barcode) : mass (reversion_checking b) ≤ mass b := by
  refine le_trans (dropZero_mass_le _) ?_
  unfold mass
  refine List.sum_le_sum (fun r hr => ?_)
  unfold rowSumF
  refine List.sum_le_sum (fun c hc => ?_)
  exact rcFold_le b.cols b.cols b.val r c

theorem rc_colsOK (b : Barcode) (h : ColsOK b) : ColsOK (reversion_checking b) :=
  dropZero_colsOK _ ⟨h.1, h.2⟩

/-! ### Structure of `identify_chains` output -/

theorem dedupBySite_subset :
    ∀ (l : List (Tok × Tok × Tok)) (seen : List Nat), ∀ sm ∈ dedupBySite seen l, sm ∈ l := by
  intro l
  induction l with
  | nil => intro seen sm h; exact absurd h (List.not_mem_nil sm)
  | cons x t ih =>
    intro seen sm h
    rw [dedupBySite] at h
    rcases List.mem_append.1 h with h1 | h1
    · by_cases hx : sortFun x.2.2 ∈ seen
      · rw [if_pos hx] at h1
        exact absurd h1 (List.not_mem_nil sm)
      · rw [if_neg hx] at h1
        rw [List.mem_singleton] at h1
        exact h1 ▸ List.mem_cons_self x t
    · exact List.mem_cons_of_mem x (ih _ sm h1)

theorem ic_subset (b : Barcode) :
    ∀ sm ∈ identify_chains b, sm ∈ chainCandidates b.cols ∧ observed b sm = true := by
  intro sm h
  have h1 := dedupBySite_subset _ _ sm h
  exact ⟨(List.mem_filter.1 h1).1, (List.mem_filter.1 h1).2⟩

theorem cand_spec {cols : List Tok} {sm : Tok × Tok × Tok} (h : sm ∈ chainCandidates cols) :
    sm.1 ∈ cols ∧ sm.2.1 ∈ cols ∧ flipSite sm.1 = site sm.2.1 ∧ flip sm.1 ≠ sm.2.1 ∧
      sm.2.2 = site sm.1 ++ pyLast sm.2.1 := by
  obtain ⟨d, hd, hmem⟩ := List.mem_flatMap.1 h
  obtain ⟨d2, hd2, hif⟩ := List.mem_filterMap.1 hmem
  by_cases hc : flipSite d = site d2 ∧ flip d ≠ d2
  · rw [if_pos hc] at hif
    injection hif with h3
    subst h3
    exact ⟨hd, hd2, hc.1, hc.2, rfl⟩
  · rw [if_neg hc] at hif
    exact absurd hif (by simp)

theorem cand_fst_ne_snd {cols : List Tok} {sm : Tok × Tok × Tok}
    (h : sm ∈ chainCandidates cols) : sm.1 ≠ sm.2.1 := by
  obtain ⟨-, -, hsite, hflip, -⟩ := cand_spec h
  intro he
  have h1 : flipSite sm.1 = site sm.1 := by rw [hsite, ← he]
  exact hflip ((flip_eq_of_flipSite_eq_site h1).trans he)

theorem cand_cc_ne_nil {cols : List Tok} {sm : Tok × Tok × Tok} (hEmp : [] ∉ cols)
    (h : sm ∈ chainCandidates cols) : sm.2.2 ≠ [] := by
  obtain ⟨-, hb, -, -, hcc⟩ := cand_spec h
  have hb' : sm.2.1 ≠ [] := fun he => hEmp (he ▸ hb)
  obtain ⟨ch, rest, h2⟩ := List.exists_cons_of_ne_nil hb'
  rw [hcc, h2]
  simp [pyLast]

theorem observed_spec {b : Barcode} {sm : Tok × Tok × Tok} (h : observed b sm = true) :
    ∃ r ∈ b.rows, 0 < b.val r sm.1 ∧ 0 < b.val r sm.2.1 := by
  obtain ⟨r, hr, hp⟩ := List.any_eq_true.1 h
  simp only [Bool.and_eq_true, decide_eq_true_eq] at hp
  exact ⟨r, hr, hp⟩

theorem observed_linSeq_ne_nil {b : Barcode} {sm : Tok × Tok × Tok}
    (h : observed b sm = true) : linSeq b sm.1 sm.2.1 ≠ [] := by
  obtain ⟨r, hr, h1, h2⟩ := observed_spec h
  exact List.ne_nil_of_mem ((linSeq_spec b sm.1 sm.2.1 r).2 ⟨hr, h1, h2⟩)

theorem ic_facts (b : Barcode) (hEmp : [] ∉ b.cols) :
    ∀ sm ∈ identify_chains b,
      sm.1 ∈ b.cols ∧ sm.2.1 ∈ b.cols ∧ sm.1 ≠ sm.2.1 ∧ sm.2.2 ≠ [] := by
  intro sm h
  obtain ⟨hcand, -⟩ := ic_subset b sm h
  obtain ⟨x, y, -, -, -⟩ := cand_spec hcand
  exact ⟨x, y, cand_fst_ne_snd hcand, cand_cc_ne_nil hEmp hcand⟩

/-! ### `chainPass` strictly decreases the total count mass -/

theorem chainPass_colsOK (b : Barcode) (hOK : ColsOK b) : ColsOK (chainPass b) :=
  rc_colsOK _ (dropZero_colsOK _
    (applyChains_spec (identify_chains b) b hOK (ic_facts b hOK.2)).2.1)

theorem chainPass_mass_lt (b : Barcode) (hOK : ColsOK b)
    (hne : identify_chains b ≠ []) : mass (chainPass b) < mass b := by
  cases hic : identify_chains b with
  | nil => exact absurd hic hne
  | cons sm t =>
    have hsm0 : sm ∈ identify_chains b := hic ▸ List.mem_cons_self sm t
    obtain ⟨ha, hb, hab, hcc⟩ := ic_facts b hOK.2 sm hsm0
    obtain ⟨hOK', hsub⟩ := applyStep_colsOK b sm hOK hcc
    have hlin : linSeq b sm.1 sm.2.1 ≠ [] :=
      observed_linSeq_ne_nil (ic_subset b sm hsm0).2
    have hlt : mass (applyStep b sm) < mass b :=
      mass_applyStep_lt b sm hOK.1 ha hb hab hlin
    have hrest := applyChains_spec t (applyStep b sm) hOK' (fun sm' h' => by
      obtain ⟨x, y, z, w⟩ := ic_facts b hOK.2 sm' (hic ▸ List.mem_cons_of_mem sm h')
      exact ⟨hsub x, hsub y, z, w⟩)
    calc mass (chainPass b)
        ≤ mass (dropZero (applyChains b (identify_chains b))) := rc_mass_le _
      _ ≤ mass (applyChains b (identify_chains b)) := dropZero_mass_le _
      _ = mass (applyChains (applyStep b sm) t) := by
            rw [hic]
            rfl
      _ ≤ mass (applyStep b sm) := hrest.1
      _ < mass b := hlt

/-- With fuel exceeding the total count mass, the iteration reaches a state
with no confirmed chain candidates. -/
theorem chainIter_fixpoint :
    ∀ (n : Nat) (b : Barcode), ColsOK b → mass b < n →
      identify_chains (chainIter n b) = [] := by
  intro n
  induction n with
  | zero => intro b _ hm; exact absurd hm (Nat.not_lt_zero _)
  | succ n ih =>
    intro b hOK hm
    rw [chainIter]
    by_cases hic : identify_chains b = []
    · rw [if_pos hic]
      exact hic
    · rw [if_neg hic]
      refine ih (chainPass b) (chainPass_colsOK b hOK) ?_
      have h := chainPass_mass_lt b hOK hic
      omega

/-! ### Claims C2 and C5 -/

/-- Claim C2: for every barcode matrix with non-negative integer entries
(distinct, non-empty column tokens), `check_mutation_chain` terminates: the
pass loop reaches, after finitely many passes — at most the total count mass
of the matrix — a state in which `identify_chains` returns no confirmed
candidates.  Each pass strictly decreases the total count mass
(`chainPass_mass_lt`), which is what lets `check_mutation_chain` run with
`mass b + 1` fuel and end at the fixpoint. -/
theorem C2_check_mutation_chain_terminates (b : Barcode) (hN : b.cols.Nodup)
    (hEmp : [] ∉ b.cols) : identify_chains (check_mutation_chain b) = [] :=
  chainIter_fixpoint (mass b + 1) b ⟨hN, hEmp⟩ (Nat.lt_succ_self _)

/-- A one-lineage matrix with the chain columns `A1G` and `G1T`. -/
def bcChain : Barcode :=
  { rows := ["L"],
    cols := [['A', '1', 'G'], ['G', '1', 'T']],
    val := fun _ c => if c = ['A', '1', 'G'] ∨ c = ['G', '1', 'T'] then 1 else 0 }

/-- Witness for C2 at the concrete matrix `bcChain`. -/
theorem C2_witness :
    bcChain.cols.Nodup ∧ ([] ∉ bcChain.cols) ∧
    identify_chains (check_mutation_chain bcChain) = [] :=
  ⟨by decide, by decide,
    C2_check_mutation_chain_terminates bcChain (by decide) (by decide)⟩

/-- Claim C5: on the matrix with columns `A1G`, `G1T` both set for lineage
`L` (not flip partners), `identify_chains` proposes exactly the combined
token `A1T`, and `check_mutation_chain` produces the matrix whose only
column is `A1T`, set to 1 for `L`, the constituents decremented to 0 and
dropped. -/
theorem C5_chain_example :
    0 < bcChain.val "L" ['A', '1', 'G'] ∧ 0 < bcChain.val "L" ['G', '1', 'T'] ∧
    flip ['A', '1', 'G'] ≠ ['G', '1', 'T'] ∧
    identify_chains bcChain = [(['A', '1', 'G'], ['G', '1', 'T'], ['A', '1', 'T'])] ∧
    (check_mutation_chain bcChain).cols = [['A', '1', 'T']] ∧
    (check_mutation_chain bcChain).val "L" ['A', '1', 'T'] = 1 ∧
    ['A', '1', 'G'] ∉ (check_mutation_chain bcChain).cols ∧
    ['G', '1', 'T'] ∉ (check_mutation_chain bcChain).cols := by
  decide

/-! ### Claim C7: `parse_tree_paths` and duplicate handling -/

/-- Membership in the deduplicated table: a row survives exactly when it
occurs at a position with no later row carrying the same path value. -/
theorem mem_dropDupKeepLast (p : String × Option (List Char)) :
    ∀ l : List (String × Option (List Char)),
      p ∈ dropDupKeepLast l ↔
        ∃ l₁ l₂, l = l₁ ++ p :: l₂ ∧ p.2 ∉ l₂.map Prod.snd := by
  intro l
  induction l with
  | nil =>
    constructor
    · intro h
      exact absurd h (List.not_mem_nil p)
    · rintro ⟨l₁, l₂, he, -⟩
      cases l₁ <;> simp at he
  | cons x xs ih =>
    rw [dropDupKeepLast]
    by_cases hx : x.2 ∈ xs.map Prod.snd
    · rw [if_pos hx, ih]
      constructor
      · rintro ⟨l₁, l₂, he, hn⟩
        exact ⟨x :: l₁, l₂, by rw [List.cons_append, he], hn⟩
      · rintro ⟨l₁, l₂, he, hn⟩
        cases l₁ with
        | nil =>
          rw [List.nil_append] at he
          injection he with h1 h2
          subst h1
          exact absurd (h2 ▸ hx) hn
        | cons y l₁' =>
          rw [List.cons_append] at he
          injection he with h1 h2
          exact ⟨l₁', l₂, h2, hn⟩
    · rw [if_neg hx]
      constructor
      · intro h
        rcases List.mem_cons.1 h with h1 | h1
        · subst h1
          exact ⟨[], xs, rfl, hx⟩
        · obtain ⟨l₁, l₂, he, hn⟩ := ih.1 h1
          exact ⟨x :: l₁, l₂, by rw [List.cons_append, he], hn⟩
      · rintro ⟨l₁, l₂, he, hn⟩
        cases l₁ with
        | nil =>
          rw [List.nil_append] at he
          injection he with h1 h2
          exact h1 ▸ List.mem_cons_self x _
        | cons y l₁' =>
          rw [List.cons_append] at he
          injection he with h1 h2
          exact List.mem_cons_of_mem x (ih.2 ⟨l₁', l₂, h2, hn⟩)

/-- Counterexample to claim C7: two rows with the same clade id `A` but
different path strings are BOTH kept — `drop_duplicates(keep="last")`
compares only the column values and ignores the clade index — so the clade
id `A` occurs twice in the output of `parse_tree_paths`. -/
theorem C7_counterexample :
    (parse_tree_paths [("A", some ['x']), ("A", some ['y'])]).map Prod.fst = ["A", "A"] ∧
    ((parse_tree_paths [("A", some ['x']), ("A", some ['y'])]).map Prod.fst).count "A" = 2 := by
  decide

/-- Claim C7 as amended: `parse_tree_paths` deduplicates on the row VALUE
(the `from_tree_root` string, with NaN equal to NaN), not on the clade id:
a row is dropped exactly when a later row carries an identical path value
(keep-last of each duplicate-value group).  Duplicate clade ids with
distinct path values all survive. -/
theorem C7_drop_duplicates_by_value (l : List (String × Option (List Char))) :
    parse_tree_paths l
      = (dropDupKeepLast l).map (fun x => (x.1, pySplitPath (x.2.getD []))) ∧
    ∀ p : String × Option (List Char),
      p ∈ dropDupKeepLast l ↔
        ∃ l₁ l₂, l = l₁ ++ p :: l₂ ∧ p.2 ∉ l₂.map Prod.snd :=
  ⟨rfl, fun p => mem_dropDupKeepLast p l⟩

/-- Witness for the amended C7: in `[(A, x), (B, x)]` the later row with the
same path value survives (and the earlier `A` row is the one dropped). -/
theorem C7_witness :
    ("B", some ['x']) ∈ dropDupKeepLast [("A", some ['x']), ("B", some ['x'])] :=
  ((C7_drop_duplicates_by_value [("A", some ['x']), ("B", some ['x'])]).2
    ("B", some ['x'])).2 ⟨[("A", some ['x'])], [], rfl, by simp⟩

/-! ### Claim C1: root-inference candidate collection -/

/-- A sample-mutation table whose middle sample is absent from the FASTA. -/
def tblC1 : List (String × Option (List Char)) :=
  [("s1", some ['g', ':', 'A', '2', 'T']),
   ("sX", some ['g', ':', 'A', '3', 'T']),
   ("s2", some ['g', ':', 'A', '4', 'T'])]

/-- FASTA records for `s1` and `s2` only; `sX` is missing. -/
def fastaC1 : List (String × List Char) :=
  [("s1", ['A', 'A', 'A', 'A']), ("s2", ['A', 'A', 'A', 'A'])]

/-- Claim C1 fails on the code: the loop at `ref_muts.py` lines 166-178 logs
"Skipping." but then executes `break`, so the first sample missing from the
FASTA aborts the whole collection.  On `tblC1`/`fastaC1` only `s1`
contributes a candidate root sequence, although both `s1` and `s2` have a
non-null mutation entry and a sequence record. -/
theorem C1_break_drops_later_samples :
    collectedSamples fastaC1 (validSamples tblC1) = ["s1"] ∧
    (collectRootSeqs fastaC1 (validSamples tblC1)).length = 1 ∧
    ((validSamples tblC1).filter (fun p => (fastaC1.lookup p.1).isSome)).map Prod.fst
      = ["s1", "s2"] ∧
    collectedSamples fastaC1 (validSamples tblC1)
      ≠ ((validSamples tblC1).filter (fun p => (fastaC1.lookup p.1).isSome)).map Prod.fst := by
  decide

/-! ### Claim C10: the sentinel root-mutation map -/

/-- Claim C10 (main part): whenever `_extract_mutations` produces the empty
mutation map (null string, empty string, or a string `MUT_PATTERN` finds no
group in), `_reverse_mutations_to_root` yields the sentinel
`{0: {"base": "", "mut": ""}}`, and `_construct_root_sequence` applied to
the sentinel and a non-empty sequence `s` returns `s` minus its last
character concatenated with all of `s` (length `2n - 1`); the result
differs from `s` whenever `s` has at least two characters. -/
theorem C10_sentinel (ms : Option (List Char)) (s : List Char)
    (hms : ms = none ∨ ∃ s0, ms = some s0 ∧ (s0 = [] ∨ findAllMut s0 = []))
    (hs : s ≠ []) :
    _extract_mutations ms = [] ∧
    _reverse_mutations_to_root (_extract_mutations ms) = [(0, ⟨[], []⟩)] ∧
    _construct_root_sequence (_reverse_mutations_to_root (_extract_mutations ms)) s
      = s.dropLast ++ s ∧
    (_construct_root_sequence (_reverse_mutations_to_root (_extract_mutations ms)) s).length
      = 2 * s.length - 1 ∧
    (2 ≤ s.length →
      _construct_root_sequence (_reverse_mutations_to_root (_extract_mutations ms)) s ≠ s) := by
  have hext : _extract_mutations ms = [] := by
    rcases hms with h | ⟨s0, hm, h0⟩
    · rw [h]
      rfl
    · rcases h0 with h0 | h0
      · rw [hm, h0]
        rfl
      · cases s0 with
        | nil =>
          rw [hm]
          rfl
        | cons c rest =>
          rw [hm]
          show ((findAllMut (c :: rest)).reverse).foldl _ [] = []
          rw [h0]
          rfl
  have hrev : _reverse_mutations_to_root (_extract_mutations ms) = [(0, ⟨[], []⟩)] := by
    rw [hext]
    rfl
  have hcon : _construct_root_sequence (_reverse_mutations_to_root (_extract_mutations ms)) s
      = s.dropLast ++ s := by
    rw [hrev]
    show pySliceToPred s 0 ++ [] ++ s.drop 0 = s.dropLast ++ s
    rw [pySliceToPred, if_pos rfl, List.drop_zero, List.append_nil]
  have hlen : (s.dropLast ++ s).length = 2 * s.length - 1 := by
    rw [List.length_append, List.length_dropLast]
    have h := List.length_pos.2 hs
    omega
  refine ⟨hext, hrev, hcon, by rw [hcon]; exact hlen, fun h2 heq => ?_⟩
  rw [hcon] at heq
  have h1 := congrArg List.length heq
  rw [hlen] at h1
  omega

/-- Counterexample to the "not the unchanged sequence" part of claim C10: on
a one-character sequence the splice returns the sequence unchanged. -/
theorem C10_counterexample :
    _extract_mutations (none : Option (List Char)) = [] ∧
    _construct_root_sequence
      (_reverse_mutations_to_root (_extract_mutations (none : Option (List Char))))
      ['A'] = ['A'] := by
  decide

/-- Witness for C10 at the concrete sequence `GAT` (null mutation string). -/
theorem C10_witness :
    _construct_root_sequence
      (_reverse_mutations_to_root (_extract_mutations (none : Option (List Char))))
      ['G', 'A', 'T'] = (['G', 'A', 'T'] : List Char).dropLast ++ ['G', 'A', 'T'] :=
  (C10_sentinel none ['G', 'A', 'T'] (Or.inl rfl) (by decide)).2.2.1

/-! ### Claim C6: the consensus `_derive_root_sequence` -/

theorem foldl_max_spec (counts : Char → Nat) :
    ∀ (l : List Char) (c0 : Char),
      (l.foldl (fun best x => if counts best < counts x then x else best) c0) ∈ c0 :: l ∧
      ∀ x ∈ c0 :: l,
        counts x ≤ counts (l.foldl (fun best x => if counts best < counts x then x else best) c0) := by
  intro l
  induction l with
  | nil =>
    intro c0
    refine ⟨List.mem_cons_self c0 [], fun x hx => ?_⟩
    rw [List.mem_singleton] at hx
    exact hx ▸ Nat.le_refl _
  | cons y t ih =>
    intro c0
    rw [List.foldl_cons]
    obtain ⟨hmem, hle⟩ := ih (if counts c0 < counts y then y else c0)
    constructor
    · rcases List.mem_cons.1 hmem with h | h
      · by_cases hc : counts c0 < counts y
        · rw [if_pos hc] at h ⊢
          rw [h]
          exact List.mem_cons_of_mem c0 (List.mem_cons_self y t)
        · rw [if_neg hc] at h ⊢
          rw [h]
          exact List.mem_cons_self c0 (y :: t)
      · exact List.mem_cons_of_mem c0 (List.mem_cons_of_mem y h)
    · intro x hx
      have hstep : counts c0 ≤ counts (if counts c0 < counts y then y else c0) ∧
          counts y ≤ counts (if counts c0 < counts y then y else c0) := by
        by_cases hc : counts c0 < counts y
        · rw [if_pos hc]
          omega
        · rw [if_neg hc]
          omega
      have hhead := hle _ (List.mem_cons_self _ t)
      rcases List.mem_cons.1 hx with h | h
      · subst h
        omega
      · rcases List.mem_cons.1 h with h2 | h2
        · subst h2
          omega
        · exact hle x (List.mem_cons_of_mem _ h2)

theorem pyMaxByCount_spec (counts : Char → Nat) (l : List Char) (c : Char)
    (h : pyMaxByCount counts l = some c) : c ∈ l ∧ ∀ x ∈ l, counts x ≤ counts c := by
  cases l with
  | nil => exact absurd h (by simp [pyMaxByCount])
  | cons c0 rest =>
    rw [pyMaxByCount] at h
    injection h with h1
    obtain ⟨hmem, hle⟩ := foldl_max_spec counts rest c0
    exact ⟨h1 ▸ hmem, fun x hx => h1 ▸ hle x hx⟩

theorem deriveChar_spec (σ : List Char → List Char) (hσ : SetEnum σ)
    (nucs : List Char) (c : Char) (h : deriveChar σ nucs = some c) :
    c ∈ filterNucs nucs ∧
      ∀ x ∈ filterNucs nucs,
        (filterNucs nucs).count x ≤ (filterNucs nucs).count c := by
  unfold deriveChar at h
  obtain ⟨hmem, hle⟩ := pyMaxByCount_spec _ _ _ h
  obtain ⟨-, hiff⟩ := hσ (filterNucs nucs)
  exact ⟨(hiff c).1 hmem, fun x hx => hle x ((hiff x).2 hx)⟩

theorem optTraverse_spec (f : Nat → Option Char) :
    ∀ (l : List Nat) (out : List Char), optTraverse f l = some out →
      out.length = l.length ∧
      ∀ i (hi : i < l.length) (ho : i < out.length),
        f (l.get ⟨i, hi⟩) = some (out.get ⟨i, ho⟩) := by
  intro l
  induction l with
  | nil =>
    intro out h
    rw [optTraverse] at h
    injection h with h1
    subst h1
    exact ⟨rfl, fun i hi _ => absurd hi (Nat.not_lt_zero i)⟩
  | cons j t ih =>
    intro out h
    rw [optTraverse] at h
    cases hf : f j with
    | none =>
      rw [hf] at h
      simp at h
    | some c =>
      rw [hf] at h
      cases ht : optTraverse f t with
      | none =>
        rw [ht] at h
        simp at h
      | some cs =>
        rw [ht] at h
        injection h with h1
        subst h1
        obtain ⟨hl, hforall⟩ := ih cs ht
        refine ⟨by simp [hl], fun i hi ho => ?_⟩
        cases i with
        | zero => exact hf
        | succ i' =>
          have hi' : i' < t.length := by
            rw [List.length_cons] at hi
            omega
          have ho' : i' < cs.length := by
            rw [List.length_cons] at ho
            omega
          exact hforall i' hi' ho'

/-- Claim C6 as amended (the part that is true of the code): relative to ANY
admissible enumeration of the Python set of distinct filtered nucleotides,
`_derive_root_sequence` on a non-empty equal-length candidate list returns a
string of the candidates' length whose character at each position belongs to
the filtered nucleotide list of that position and attains the maximal
multiplicity there.  Which maximal-count base is returned on ties depends on
the set-enumeration order, which CPython does not specify. -/
theorem C6_derive_majority (σ : List Char → List Char) (hσ : SetEnum σ)
    (seqs : List (List Char)) (out : List Char)
    (hne : seqs ≠ []) (hlen : ∀ s ∈ seqs, s.length = (seqs.headD []).length)
    (hout : _derive_root_sequence σ seqs = some out) :
    out.length = (seqs.headD []).length ∧
    ∀ i (hi : i < out.length),
      out.get ⟨i, hi⟩ ∈ filterNucs (seqs.map (fun s => s.getD i ' ')) ∧
      ∀ x ∈ filterNucs (seqs.map (fun s => s.getD i ' ')),
        (filterNucs (seqs.map (fun s => s.getD i ' '))).count x
          ≤ (filterNucs (seqs.map (fun s => s.getD i ' '))).count (out.get ⟨i, hi⟩) := by
  unfold _derive_root_sequence at hout
  obtain ⟨hl, hforall⟩ := optTraverse_spec _ _ _ hout
  rw [List.length_range] at hl
  refine ⟨hl, fun i hi => ?_⟩
  have hi' : i < (List.range (seqs.headD []).length).length := by
    rw [List.length_range]
    omega
  have h := hforall i hi' hi
  rw [List.get_range] at h
  exact deriveChar_spec σ hσ _ _ h

/-- First-occurrence enumeration order of the distinct elements. -/
theorem setEnum_dedup : SetEnum (fun l => l.dedup) :=
  fun l => ⟨List.nodup_dedup l, fun _ => List.mem_dedup⟩

/-- The reversed enumeration order — equally admissible for a Python set. -/
theorem setEnum_dedup_reverse : SetEnum (fun l => l.dedup.reverse) :=
  fun l => ⟨List.nodup_reverse.2 (List.nodup_dedup l),
    fun c => by rw [List.mem_reverse]; exact List.mem_dedup⟩

/-- Counterexample to claim C6's tie-break: `max(set(nucs), key=nucs.count)`
iterates a CPython set, whose order is hash-dependent and unspecified.  Two
admissible enumerations of the same set give different consensus characters
on the tied input `[T], [A]` — under the reversed order the result is `A`,
not the first-occurring tied base `T` the claim promises — so the
first-occurrence tie-break (and with it determinism in the candidate list
alone) does not hold. -/
theorem C6_counterexample :
    SetEnum (fun l => l.dedup) ∧ SetEnum (fun l => l.dedup.reverse) ∧
    _derive_root_sequence (fun l => l.dedup) [['T'], ['A']] = some ['T'] ∧
    _derive_root_sequence (fun l => l.dedup.reverse) [['T'], ['A']] = some ['A'] ∧
    (['A'] : List Char) ≠ ['T'] :=
  ⟨setEnum_dedup, setEnum_dedup_reverse, by decide, by decide, by decide⟩

/-- Witness for the amended C6 at a concrete two-candidate input. -/
theorem C6_witness :
    _derive_root_sequence (fun l => l.dedup) [['A', 'G'], ['A', 'T']]
      = some ['A', 'G'] ∧
    (['A', 'G'] : List Char).length = ([['A', 'G'], ['A', 'T']].headD []).length :=
  ⟨by decide,
    (C6_derive_majority (fun l => l.dedup) setEnum_dedup [['A', 'G'], ['A', 'T']]
      ['A', 'G'] (by decide) (by decide) (by decide)).1⟩

end BarcodeForge
